import Mathlib

/-!
Verification of the placeholder-substitution pipeline of
`nkrane/terminology_manager.py` (repository GhanaNLP/nkrane-translator).

Text is modelled as `List Char`.  The Python string operations used by the
source (`lower`, `upper`, `capitalize`, `isupper`, `istitle`, `strip`,
`split`, `find`, `replace`, slicing) are embedded as executable Lean
functions restricted to the ASCII behaviour (`Char.toLower` / `Char.toUpper`
are the ASCII maps, matching Python on ASCII input, which is all the
repository's terminology handling exercises).  Recursions that are not
structural in Python (scanning loops) are written with an explicit fuel
argument equal to the list length so that every definition reduces in the
kernel; fuel-irrelevance lemmas show the fuel never runs out.
-/

set_option maxHeartbeats 1000000

namespace Nkrane

/-- ASCII lowering of a text, Python `str.lower` on ASCII input. -/
def pyLowerL (l : List Char) : List Char := l.map Char.toLower

/-- ASCII uppering of a text, Python `str.upper` on ASCII input. -/
def pyUpperL (l : List Char) : List Char := l.map Char.toUpper

/-- Python whitespace characters recognised by `str.strip` / `str.split`. -/
def isPySpace (c : Char) : Bool :=
  c = ' ' || c = '\t' || c = '\n' || c = '\r' || c = '\x0b' || c = '\x0c'

/-- Python `str.strip`: drop leading and trailing whitespace. -/
def pyStrip (l : List Char) : List Char :=
  ((l.dropWhile isPySpace).reverse.dropWhile isPySpace).reverse

/-- Fueled worker for `pySplitWs`; fuel bounds the number of scanned chars. -/
def pySplitGo : Nat → List Char → List (List Char)
  | _, [] => []
  | 0, _ => []
  | fuel + 1, c :: rest =>
    if isPySpace c then pySplitGo fuel rest
    else
      ((c :: rest).takeWhile (fun d => !isPySpace d)) ::
        pySplitGo fuel ((c :: rest).dropWhile (fun d => !isPySpace d))

/-- Python `str.split()` with no arguments: split on whitespace runs,
dropping empty fields. -/
def pySplitWs (l : List Char) : List (List Char) := pySplitGo l.length l

/-- `' '.join(words)` from Python. -/
def joinSpace (ws : List (List Char)) : List Char := List.intercalate [' '] ws

/-- Python `str.capitalize`: first character uppercased, the rest lowercased. -/
def pyCapitalize : List Char → List Char
  | [] => []
  | c :: rest => c.toUpper :: rest.map Char.toLower

/-- Python `str.isupper` on ASCII text: at least one cased (alphabetic)
character and no lowercase character. -/
def pyIsUpper (l : List Char) : Bool :=
  l.any Char.isAlpha && l.all (fun c => !c.isLower)

/-- Worker for `pyIsTitle`; state is (previous char was cased, seen a cased
char), exactly the CPython `str.istitle` loop restricted to ASCII. -/
def pyIsTitleGo : List Char → Bool → Bool → Bool
  | [], _, seen => seen
  | c :: rest, prevCased, seen =>
    if c.isUpper then !prevCased && pyIsTitleGo rest true true
    else if c.isLower then prevCased && pyIsTitleGo rest true true
    else pyIsTitleGo rest false seen

/-- Python `str.istitle` on ASCII text. -/
def pyIsTitle (l : List Char) : Bool := pyIsTitleGo l false false

/-- The character of a decimal digit (`0 ≤ d ≤ 9`). -/
def natDigitChar (d : Nat) : Char := Char.ofNat (48 + d)

/-- Fueled most-significant-first decimal digits of a natural number;
`fuel ≥ n` is always enough. -/
def natReprGo : Nat → Nat → List Char
  | 0, n => [natDigitChar (n % 10)]
  | fuel + 1, n =>
    if n < 10 then [natDigitChar n]
    else natReprGo fuel (n / 10) ++ [natDigitChar (n % 10)]

/-- Decimal representation of a natural number, Python `str(n)`. -/
def natRepr (n : Nat) : List Char := natReprGo n n

/-- Decimal representation of an integer, Python `str(i)`. -/
def intRepr (i : Int) : List Char :=
  if i < 0 then '-' :: natRepr i.natAbs else natRepr i.toNat

/-- The placeholder token the source builds at line 195:
`placeholder = f"<{term_obj.id}>"`. -/
def mkPlaceholder (i : Int) : List Char := '<' :: (intRepr i ++ ['>'])

/-- Value of a most-significant-first digit string (proof tool for
injectivity of `natRepr`). -/
def digitsVal (l : List Char) : Nat :=
  l.foldl (fun acc c => acc * 10 + (c.toNat - 48)) 0

/-- Worker for `pyFind`: first index `≥ i` at which `sub` starts in the
remaining text. -/
def pyFindGo (sub : List Char) : List Char → Nat → Option Nat
  | [], i => if sub.isPrefixOf ([] : List Char) then some i else none
  | c :: rest, i =>
    if sub.isPrefixOf (c :: rest) then some i else pyFindGo sub rest (i + 1)

/-- Python `str.find`: index of the first occurrence (`none` stands for
Python's `-1`). -/
def pyFind (t sub : List Char) : Option Nat := pyFindGo sub t 0

/-- Fueled worker for `pyReplace`: leftmost non-overlapping replacement of a
non-empty pattern; fuel bounds the number of scanned chars. -/
def replaceGo (old new : List Char) : Nat → List Char → List Char
  | _, [] => []
  | 0, t => t
  | fuel + 1, c :: rest =>
    if old.isPrefixOf (c :: rest) then
      new ++ replaceGo old new fuel (rest.drop (old.length - 1))
    else c :: replaceGo old new fuel rest

/-- Replacement of a non-empty pattern with canonical fuel. -/
def pyReplaceAux (old new t : List Char) : List Char := replaceGo old new t.length t

/-- Python `str.replace(old, new)` (all occurrences).  The empty-pattern
branch inserts `new` between all characters and at both ends, as Python
does. -/
def pyReplace (t old new : List Char) : List Char :=
  if old = [] then new ++ t.foldr (fun c acc => c :: (new ++ acc)) []
  else pyReplaceAux old new t

/-- Python slice `t[a:b]` for `0 ≤ a ≤ b`. -/
def pySlice (t : List Char) (a b : Nat) : List Char := (t.drop a).take (b - a)

/-- `t[:s] + p + t[e:]`, the splice of preprocess lines 198-202. -/
def spliceAt (t : List Char) (s e : Nat) (p : List Char) : List Char :=
  t.take s ++ p ++ t.drop e

/-- The `Term` dataclass of the source (lines 20-27). -/
structure Term where
  id : Int
  term : List Char
  translation : List Char
  domain : List Char
  language : List Char
  google_language_code : Option (List Char)
deriving Repr, DecidableEq

/-- `self.terms`: insertion-ordered dictionary from normalized term text to
`Term`, modelled as an association list with unique keys. -/
def TermStore := List (List Char × Term)

instance : DecidableEq TermStore := by
  unfold TermStore
  infer_instance

/-- First-match lookup in an association list (Python `d[k]` / `k in d`). -/
def assocLookup {β : Type} : List (List Char × β) → List Char → Option β
  | [], _ => none
  | kv :: rest, k => if kv.1 = k then some kv.2 else assocLookup rest k

/-- Python dict assignment `d[k] = v`: update in place if the key exists
(keeping its position), otherwise append. -/
def dictInsert {β : Type} (d : List (List Char × β)) (k : List Char) (v : β) :
    List (List Char × β) :=
  if (assocLookup d k).isSome then
    d.map (fun kv => if kv.1 = k then (k, v) else kv)
  else d ++ [(k, v)]

/-- Module line 18: when the spaCy model is unavailable the module-level
`STOPWORDS` is `set()` — the empty set. -/
def stopwordsFallback : List (List Char) := []

/-- `_remove_stopwords` lines 99-103, the non-spaCy branch: lowercase,
whitespace-split, keep the words not in the module-level `STOPWORDS`, and
rejoin with single spaces. -/
def removeStopwordsFallback (phrase : List Char) : List Char :=
  joinSpace ((pySplitWs (pyLowerL phrase)).filter
    (fun w => !(stopwordsFallback.contains w)))

/-- A candidate span dict `{'text':…, 'start':…, 'end':…}`; the Python key
`end` is spelled `stop` here because `end` is a Lean keyword. -/
structure Span where
  text : List Char
  start : Nat
  stop : Nat
deriving Repr, DecidableEq

/-- Word characters of the regex `\w` (ASCII). -/
def isWordChar (c : Char) : Bool := c.isAlpha || c.isDigit || c = '_'

/-- Fueled worker for `findallWords`. -/
def findallGo : Nat → List Char → List (List Char)
  | _, [] => []
  | 0, _ => []
  | fuel + 1, c :: rest =>
    if isWordChar c then
      ((c :: rest).takeWhile isWordChar) ::
        findallGo fuel ((c :: rest).dropWhile isWordChar)
    else findallGo fuel rest

/-- `re.findall(r'\b\w+\b', t)`: the maximal runs of word characters. -/
def findallWords (l : List Char) : List (List Char) := findallGo l.length l

/-- `_extract_noun_phrases` lines 111-116, the non-spaCy fallback branch:
every word of the lowercased text that is a known term key becomes a span
whose offsets come from `text.lower().find(word)` — the first occurrence.
Python's `find` returns `-1` for an absent word; that branch is unreachable
here (each word of `findallWords` occurs in the lowered text, see
`findallWords_infix` and `pyFind_isSome_of_infix`), so the model drops such
a span instead of building one with a negative offset. -/
def extract_noun_phrases_fallback (terms : TermStore) (text : List Char) :
    List Span :=
  (findallWords (pyLowerL text)).filterMap (fun w =>
    if (assocLookup terms w).isSome then
      match pyFind (pyLowerL text) w with
      | some i => some ⟨w, i, i + w.length⟩
      | none => none
    else none)

/-- `_find_matching_term` lines 147-160: exact lookup of the lowercased,
stripped phrase, then lookup of the stopword-cleaned phrase if non-empty.
The stopword-removal capability is passed in explicitly (spaCy branch or
fallback branch of `_remove_stopwords`). -/
def find_matching_term (terms : TermStore) (rmStop : List Char → List Char)
    (phrase : List Char) : Option Term :=
  let phrase_lower := pyStrip (pyLowerL phrase)
  match assocLookup terms phrase_lower with
  | some t => some t
  | none =>
    let cleaned := rmStop phrase_lower
    if cleaned = [] then none else assocLookup terms cleaned

/-- Preprocess line 182-183: candidates whose text resolves to a term. -/
def matchingPhrases (terms : TermStore) (rmStop : List Char → List Char)
    (spans : List Span) : List Span :=
  spans.filter (fun p => (find_matching_term terms rmStop p.text).isSome)

/-- Stable descending insertion by start offset: the new span goes after
every span whose start is `≥` its own. -/
def insertDesc (p : Span) : List Span → List Span
  | [] => [p]
  | q :: rest => if q.start < p.start then p :: q :: rest else q :: insertDesc p rest

/-- Preprocess line 186: `matching_phrases.sort(key=.. start, reverse=True)`;
a stable sort descending by start offset (stable sorts agree, so this
insertion sort equals Python's stable `list.sort`). -/
def sortSpansDesc (l : List Span) : List Span :=
  l.foldl (fun acc p => insertDesc p acc) []

/-- The surviving spans in processing order (filter, then sort descending). -/
def selectSpans (terms : TermStore) (rmStop : List Char → List Char)
    (spans : List Span) : List Span :=
  sortSpansDesc (matchingPhrases terms rmStop spans)

/-- One iteration of the preprocess loop (lines 192-205): re-match the span,
build the placeholder, splice it over the span's offsets and record both
mappings. -/
def preprocessStep (terms : TermStore) (rmStop : List Char → List Char)
    (acc : List Char × List (List Char × Term) × List (List Char × List Char))
    (p : Span) :
    List Char × List (List Char × Term) × List (List Char × List Char) :=
  match find_matching_term terms rmStop p.text with
  | some term_obj =>
    let placeholder := mkPlaceholder term_obj.id
    (spliceAt acc.1 p.start p.stop placeholder,
     dictInsert acc.2.1 placeholder term_obj,
     dictInsert acc.2.2 placeholder p.text)
  | none => acc

/-- `preprocess_text` lines 162-207.  The extractor (`_extract_noun_phrases`)
is passed in explicitly; `extract_noun_phrases_fallback` is its non-spaCy
variant. -/
def preprocess_text (terms : TermStore) (rmStop : List Char → List Char)
    (extract : List Char → List Span) (text : List Char) :
    List Char × List (List Char × Term) × List (List Char × List Char) :=
  if terms = [] then (text, [], [])
  else
    (selectSpans terms rmStop (extract text)).foldl
      (preprocessStep terms rmStop) (text, [], [])

/-- The placeholder tokens generated, one per iteration of the preprocess
loop at line 195, in processing order. -/
def genPlaceholders (terms : TermStore) (rmStop : List Char → List Char)
    (spans : List Span) : List (List Char) :=
  (selectSpans terms rmStop spans).filterMap
    (fun p => (find_matching_term terms rmStop p.text).map
      (fun t => mkPlaceholder t.id))

/-- The case-pattern adjustment of postprocess lines 228-235: `if
original_text:` then `isupper` / `istitle` / first-char-uppercase chain. -/
def applyCaseStep (original_text translation : List Char) : List Char :=
  match original_text with
  | [] => translation
  | c :: _ =>
    if pyIsUpper original_text then pyUpperL translation
    else if pyIsTitle original_text then pyCapitalize translation
    else if c.isUpper then pyCapitalize translation
    else translation

/-- `postprocess_text` lines 209-239: for each mapping entry, adjust the
translation's case from the recorded original and textually replace the
placeholder. -/
def postprocess_text (text : List Char)
    (replacements : List (List Char × Term))
    (original_cases : List (List Char × List Char)) : List Char :=
  replacements.foldl (fun result kv =>
    let original_text := (assocLookup original_cases kv.1).getD []
    let translation := applyCaseStep original_text kv.2.translation
    pyReplace result kv.1 translation) text

/-- The claim's reading of the case rule in C1, written from the spec's
words for refinement comparison: capitalize-first only for title case or
when ONLY the first character is uppercase. -/
def onlyFirstUpper : List Char → Bool
  | [] => false
  | c :: rest => c.isUpper && rest.all (fun d => !d.isUpper)

/-- The case-restoration rule exactly as claim C1 states it (spec-derived,
for comparison against `applyCaseStep`). -/
def claimCaseRule (original translation : List Char) : List Char :=
  if pyIsUpper original then pyUpperL translation
  else if pyIsTitle original || onlyFirstUpper original then pyCapitalize translation
  else translation

/-- The amended case-restoration rule: capitalize-first whenever the
original is title case or its first character is uppercase (regardless of
the remaining characters); spec-derived wording, compared with the code's
`applyCaseStep`. -/
def amendedCaseRule (original translation : List Char) : List Char :=
  if pyIsUpper original then pyUpperL translation
  else if pyIsTitle original ||
      (match original with | [] => false | c :: _ => c.isUpper) then
    pyCapitalize translation
  else translation

/-- A loaded CSV row as seen at lines 75-79: optional `id`, raw `term` and
`translation` strings, optional `domain`. -/
structure CsvRecord where
  id : Option Int
  term : List Char
  translation : List Char
  domain : Option (List Char)
deriving Repr, DecidableEq

/-- Default domain string `'general'`. -/
def genDomain : List Char := "general".toList

/-- The normalized key of a record: `str(row.get('term','')).lower().strip()`. -/
def recordKey (r : CsvRecord) : List Char := pyStrip (pyLowerL r.term)

/-- The `Term` object built at lines 82-89; the id default is
`len(self.terms) + 1` computed before the insertion. -/
def termOfRecord (language : List Char) (store : TermStore) (r : CsvRecord) :
    Term :=
  { id := r.id.getD ((store.length : Int) + 1)
    term := recordKey r
    translation := r.translation
    domain := r.domain.getD genDomain
    language := language
    google_language_code := none }

/-- One iteration of the `_load_single_file` row loop (lines 75-90): skip
the row unless both the normalized term and the translation are non-empty,
otherwise assign `self.terms[term_text] = term_obj`. -/
def load_single_row (language : List Char) (store : TermStore) (r : CsvRecord) :
    TermStore :=
  if recordKey r ≠ [] ∧ r.translation ≠ [] then
    dictInsert store (recordKey r) (termOfRecord language store r)
  else store

/-- The whole row loop over a list of records (possibly the concatenation of
several files' rows, in load order). -/
def load_rows (language : List Char) (store : TermStore) (rs : List CsvRecord) :
    TermStore :=
  rs.foldl (load_single_row language) store

/-- The mutable attributes of a `TerminologyManager` instance. -/
structure TerminologyManager where
  terms : TermStore
  language : Option (List Char)
deriving DecidableEq

/-- `preprocess_text` as a method in state-passing form: the Python body
(lines 162-207) contains no assignment to any `self` attribute and no
mutation of a stored `Term`, so the translated method returns the updated
instance state alongside the result. -/
def preprocess_text_method (self : TerminologyManager)
    (rmStop : List Char → List Char) (extract : List Char → List Span)
    (text : List Char) :
    TerminologyManager ×
      (List Char × List (List Char × Term) × List (List Char × List Char)) :=
  (self, preprocess_text self.terms rmStop extract text)

/-- `postprocess_text` as a method in state-passing form (lines 209-239);
the body reads no `self` attribute and writes none. -/
def postprocess_text_method (self : TerminologyManager) (text : List Char)
    (replacements : List (List Char × Term))
    (original_cases : List (List Char × List Char)) :
    TerminologyManager × List Char :=
  (self, postprocess_text text replacements original_cases)

/-! ### Concrete data used by witnesses and counterexamples -/

/-- The word "server". -/
def exWServer : List Char := "server".toList

/-- The word "servidor". -/
def exWServidor : List Char := "servidor".toList

/-- Language code "es". -/
def exLangEs : List Char := "es".toList

/-- Language code "en". -/
def exLangEn : List Char := "en".toList

/-- A term record for "server" with id 1. -/
def exTermServer : Term := ⟨1, exWServer, exWServidor, genDomain, exLangEs, none⟩

/-- A one-entry store mapping "server" to `exTermServer`. -/
def exStore1 : TermStore := [(exWServer, exTermServer)]

/-- Two candidate spans whose text is "server" (two occurrences). -/
def exSpansTwice : List Span := [⟨exWServer, 0, 6⟩, ⟨exWServer, 11, 17⟩]

/-- A term with id 1 keyed "a". -/
def exTermA : Term := ⟨1, "a".toList, "x".toList, genDomain, exLangEn, none⟩

/-- A term with id 12 keyed "b". -/
def exTermB : Term := ⟨12, "b".toList, "y".toList, genDomain, exLangEn, none⟩

/-- A store holding terms with ids 1 and 12. -/
def exStore12 : TermStore := [("a".toList, exTermA), ("b".toList, exTermB)]

/-- Candidate spans matching the two terms of `exStore12`. -/
def exSpans12 : List Span := [⟨"a".toList, 0, 1⟩, ⟨"b".toList, 2, 3⟩]

/-- A term whose translation is the single letter "x". -/
def exTermX : Term := ⟨1, "t".toList, "x".toList, genDomain, exLangEn, none⟩

/-- The mixed-case original surface text "AbC". -/
def exAbC : List Char := "AbC".toList

/-- A term for "database" translated "base de datos". -/
def exTermBdd : Term :=
  ⟨1, "database".toList, "base de datos".toList, genDomain, exLangEs, none⟩

/-- "Database" (title case). -/
def exDatabaseTitle : List Char := "Database".toList

/-- "DATABASE" (all uppercase). -/
def exDatabaseUpper : List Char := "DATABASE".toList

/-- "database" (all lowercase). -/
def exDatabaseLower : List Char := "database".toList

/-- "Base de datos". -/
def exBaseCap : List Char := "Base de datos".toList

/-- "BASE DE DATOS". -/
def exBaseUpper : List Char := "BASE DE DATOS".toList

/-- "base de datos". -/
def exBaseLower : List Char := "base de datos".toList

/-- A text with no word matching any stored term. -/
def exTextHello : List Char := "hello world".toList

/-- The text "The Server is down" of the spec's end-to-end scenario. -/
def exTextTS : List Char := "The Server is down".toList

/-- A translated text holding the placeholder of id 2 and of id 1. -/
def exText6 : List Char := "a<2>b<1>c".toList

/-- The phrase "the server", beginning with the stopword "the". -/
def exThePhrase : List Char := "the server".toList

/-- A CSV row keyed "server" loaded first. -/
def exRecOld : CsvRecord := ⟨some 3, exWServer, "old".toList, none⟩

/-- A CSV row normalizing to the same key "server", loaded last. -/
def exRecNew : CsvRecord := ⟨some 7, " Server ".toList, exWServidor, none⟩

/-- A text in which the word "server" occurs twice. -/
def exTextSS : List Char := "server and server".toList

/-- The span the fallback extractor emits for each occurrence of "server"
in `exTextSS` (both carry the first occurrence's offsets). -/
def exSpanSS : Span := ⟨exWServer, 0, 6⟩

/-! ### Decimal representation lemmas -/

lemma natDigitChar_toNat {d : Nat} (h : d < 10) : (natDigitChar d).toNat = 48 + d := by
  interval_cases d <;> decide

lemma natDigitChar_isDigit {d : Nat} (h : d < 10) : (natDigitChar d).isDigit = true := by
  interval_cases d <;> decide

lemma natReprGo_irrel : ∀ f1 : Nat, ∀ n f2 : Nat, n ≤ f1 → n ≤ f2 →
    natReprGo f1 n = natReprGo f2 n := by
  intro f1
  induction f1 with
  | zero =>
    intro n f2 h1 _
    have hn : n = 0 := Nat.le_zero.mp h1
    subst hn
    cases f2 with
    | zero => rfl
    | succ g => simp [natReprGo]
  | succ f ih =>
    intro n f2 h1 h2
    cases f2 with
    | zero =>
      have hn : n = 0 := Nat.le_zero.mp h2
      subst hn
      simp [natReprGo]
    | succ g =>
      by_cases hlt : n < 10
      · simp [natReprGo, hlt]
      · have hd : n / 10 < n := Nat.div_lt_self (by omega) (by omega)
        simp only [natReprGo, if_neg hlt]
        rw [ih (n / 10) g (by omega) (by omega)]

lemma natRepr_eq (n : Nat) : natRepr n =
    if n < 10 then [natDigitChar n]
    else natRepr (n / 10) ++ [natDigitChar (n % 10)] := by
  by_cases hlt : n < 10
  · cases n with
    | zero => simp [natRepr, natReprGo, hlt]
    | succ m => simp [natRepr, natReprGo, hlt]
  · have h1 : 1 ≤ n := by omega
    obtain ⟨f, hf⟩ : ∃ f, n = f + 1 := ⟨n - 1, by omega⟩
    have hd : n / 10 < n := Nat.div_lt_self (by omega) (by omega)
    rw [if_neg hlt]
    show natReprGo n n = _
    rw [hf]
    simp only [natReprGo, if_neg (hf ▸ hlt)]
    rw [natReprGo_irrel f ((f + 1) / 10) ((f + 1) / 10) (by omega) le_rfl]
    rw [← hf]
    rfl

lemma mem_natRepr_isDigit : ∀ n : Nat, ∀ c ∈ natRepr n, c.isDigit = true := by
  intro n
  induction n using Nat.strong_induction_on with
  | _ n ih =>
    intro c hc
    rw [natRepr_eq] at hc
    by_cases hlt : n < 10
    · rw [if_pos hlt] at hc
      simp only [List.mem_singleton] at hc
      exact hc ▸ natDigitChar_isDigit hlt
    · rw [if_neg hlt] at hc
      rcases List.mem_append.mp hc with h | h
      · exact ih (n / 10) (Nat.div_lt_self (by omega) (by omega)) c h
      · simp only [List.mem_singleton] at h
        exact h ▸ natDigitChar_isDigit (Nat.mod_lt _ (by omega))

lemma digitsVal_append_digit (l : List Char) (c : Char) :
    digitsVal (l ++ [c]) = digitsVal l * 10 + (c.toNat - 48) := by
  simp [digitsVal, List.foldl_append]

lemma digitsVal_natRepr : ∀ n : Nat, digitsVal (natRepr n) = n := by
  intro n
  induction n using Nat.strong_induction_on with
  | _ n ih =>
    rw [natRepr_eq]
    by_cases hlt : n < 10
    · rw [if_pos hlt]
      simp [digitsVal, natDigitChar_toNat hlt]
    · rw [if_neg hlt]
      rw [digitsVal_append_digit, ih (n / 10) (Nat.div_lt_self (by omega) (by omega))]
      rw [natDigitChar_toNat (Nat.mod_lt _ (by omega))]
      omega

lemma natRepr_inj {m n : Nat} (h : natRepr m = natRepr n) : m = n := by
  have := congrArg digitsVal h
  rwa [digitsVal_natRepr, digitsVal_natRepr] at this

lemma natRepr_ne_nil (n : Nat) : natRepr n ≠ [] := by
  rw [natRepr_eq]
  by_cases hlt : n < 10
  · simp [hlt]
  · simp [hlt]

lemma isDigit_ne_marks {c : Char} (h : c.isDigit = true) :
    c ≠ '<' ∧ c ≠ '>' ∧ c ≠ '-' := by
  refine ⟨?_, ?_, ?_⟩ <;> rintro rfl <;> simp [Char.isDigit] at h

lemma intRepr_inj : ∀ {i j : Int}, intRepr i = intRepr j → i = j := by
  intro i j h
  unfold intRepr at h
  by_cases hi : i < 0 <;> by_cases hj : j < 0
  · rw [if_pos hi, if_pos hj] at h
    have h2 : natRepr i.natAbs = natRepr j.natAbs := by
      injection h
    have := natRepr_inj h2
    omega
  · rw [if_pos hi, if_neg hj] at h
    exfalso
    have hmem : '-' ∈ natRepr j.toNat := h ▸ List.mem_cons_self _ _
    exact (isDigit_ne_marks (mem_natRepr_isDigit _ '-' hmem)).2.2 rfl
  · rw [if_neg hi, if_pos hj] at h
    exfalso
    have hmem : '-' ∈ natRepr i.toNat := h.symm ▸ List.mem_cons_self _ _
    exact (isDigit_ne_marks (mem_natRepr_isDigit _ '-' hmem)).2.2 rfl
  · rw [if_neg hi, if_neg hj] at h
    have := natRepr_inj h
    omega

lemma mem_intRepr_not_mark : ∀ (i : Int), ∀ c ∈ intRepr i, c ≠ '<' ∧ c ≠ '>' := by
  intro i c hc
  unfold intRepr at hc
  by_cases hi : i < 0
  · rw [if_pos hi] at hc
    rcases List.mem_cons.mp hc with h | h
    · subst h
      exact ⟨by decide, by decide⟩
    · have := isDigit_ne_marks (mem_natRepr_isDigit _ c h)
      exact ⟨this.1, this.2.1⟩
  · rw [if_neg hi] at hc
    have := isDigit_ne_marks (mem_natRepr_isDigit _ c hc)
    exact ⟨this.1, this.2.1⟩

lemma mkPlaceholder_inj {i j : Int} (h : mkPlaceholder i = mkPlaceholder j) : i = j := by
  unfold mkPlaceholder at h
  have h2 : intRepr i ++ ['>'] = intRepr j ++ ['>'] := by simpa using h
  exact intRepr_inj ((List.append_left_inj _).mp h2)

lemma mkPlaceholder_ne_nil (i : Int) : mkPlaceholder i ≠ [] := by
  simp [mkPlaceholder]

/-! ### Placeholder tokens are non-overlapping markers -/

lemma append_marker_inj (m : Char) :
    ∀ (x y t1 t2 : List Char), (∀ c ∈ x, c ≠ m) → (∀ c ∈ y, c ≠ m) →
      x ++ m :: t1 = y ++ m :: t2 → x = y ∧ t1 = t2 := by
  intro x
  induction x with
  | nil =>
    intro y t1 t2 _ hy heq
    cases y with
    | nil => simpa using heq
    | cons d ys =>
      exfalso
      simp only [List.nil_append, List.cons_append, List.cons.injEq] at heq
      exact hy d (List.mem_cons_self _ _) heq.1.symm
  | cons a xs ih =>
    intro y t1 t2 hx hy heq
    cases y with
    | nil =>
      exfalso
      simp only [List.nil_append, List.cons_append, List.cons.injEq] at heq
      exact hx a (List.mem_cons_self _ _) heq.1
    | cons d ys =>
      simp only [List.cons_append, List.cons.injEq] at heq
      obtain ⟨had, htail⟩ := heq
      have := ih ys t1 t2 (fun c hc => hx c (List.mem_cons_of_mem _ hc))
        (fun c hc => hy c (List.mem_cons_of_mem _ hc)) htail
      exact ⟨by rw [had, this.1], this.2⟩

lemma mkPlaceholder_prefix_eq {a b : Int}
    (h : mkPlaceholder a <+: mkPlaceholder b) : a = b := by
  obtain ⟨r, hr⟩ := h
  unfold mkPlaceholder at hr
  have h2 : intRepr a ++ '>' :: r = intRepr b ++ '>' :: [] := by
    simpa [List.append_assoc] using hr
  have := append_marker_inj '>' (intRepr a) (intRepr b) r []
    (fun c hc => (mem_intRepr_not_mark a c hc).2)
    (fun c hc => (mem_intRepr_not_mark b c hc).2) h2
  exact intRepr_inj this.1

lemma mkPlaceholder_infix_eq {a b : Int}
    (h : mkPlaceholder a <:+: mkPlaceholder b) : a = b := by
  obtain ⟨s, t, hst⟩ := h
  cases s with
  | nil =>
    exact mkPlaceholder_prefix_eq ⟨t, by simpa using hst⟩
  | cons d s2 =>
    exfalso
    have hb : mkPlaceholder b = '<' :: (intRepr b ++ ['>']) := rfl
    rw [hb] at hst
    simp only [List.cons_append, List.cons.injEq] at hst
    obtain ⟨hd, htail⟩ := hst
    have hlt : '<' ∈ s2 ++ mkPlaceholder a ++ t := by
      have : '<' ∈ mkPlaceholder a := List.mem_cons_self _ _
      simp [List.mem_append, this]
    rw [htail] at hlt
    rcases List.mem_append.mp hlt with hmem | hmem
    · exact (mem_intRepr_not_mark b '<' hmem).1 rfl
    · simp at hmem

/-! ### Replacement machinery -/

lemma isPrefixOf_true_iff {l1 l2 : List Char} :
    l1.isPrefixOf l2 = true ↔ l1 <+: l2 := List.isPrefixOf_iff_prefix

lemma infixOfPrefix {l1 l2 : List Char} (h : l1 <+: l2) : l1 <:+: l2 := by
  obtain ⟨t, ht⟩ := h
  exact ⟨[], t, by simpa using ht⟩

lemma replaceGo_irrel (old new : List Char) :
    ∀ f1 : Nat, ∀ (t : List Char) (f2 : Nat), t.length ≤ f1 → t.length ≤ f2 →
      replaceGo old new f1 t = replaceGo old new f2 t := by
  intro f1
  induction f1 with
  | zero =>
    intro t f2 h1 h2
    cases t with
    | nil => cases f2 <;> rfl
    | cons c rest => simp at h1
  | succ f ih =>
    intro t f2 h1 h2
    cases t with
    | nil => cases f2 <;> rfl
    | cons c rest =>
      have h1L : rest.length + 1 ≤ f + 1 := by simpa using h1
      cases f2 with
      | zero => simp at h2
      | succ g =>
        have h2L : rest.length + 1 ≤ g + 1 := by simpa using h2
        simp only [replaceGo]
        by_cases hp : old.isPrefixOf (c :: rest)
        · rw [if_pos hp, if_pos hp]
          congr 1
          have hd : (rest.drop (old.length - 1)).length ≤ rest.length := by
            rw [List.length_drop]; omega
          exact ih _ g (by omega) (by omega)
        · rw [if_neg hp, if_neg hp]
          congr 1
          exact ih rest g (by omega) (by omega)

lemma pyReplaceAux_nil (old new : List Char) : pyReplaceAux old new [] = [] := rfl

lemma pyReplaceAux_cons (old new : List Char) (c : Char) (rest : List Char) :
    pyReplaceAux old new (c :: rest) =
      if old.isPrefixOf (c :: rest) then
        new ++ pyReplaceAux old new (rest.drop (old.length - 1))
      else c :: pyReplaceAux old new rest := by
  show replaceGo old new (rest.length + 1) (c :: rest) = _
  simp only [replaceGo]
  by_cases hp : old.isPrefixOf (c :: rest)
  · rw [if_pos hp, if_pos hp]
    congr 1
    have hd : (rest.drop (old.length - 1)).length ≤ rest.length := by
      rw [List.length_drop]; omega
    exact replaceGo_irrel old new rest.length _ _ (by omega) le_rfl
  · rw [if_neg hp, if_neg hp]
    congr 1

lemma pyReplaceAux_of_not_infix (old new : List Char) :
    ∀ t : List Char, ¬ old <:+: t → pyReplaceAux old new t = t := by
  intro t
  induction t with
  | nil => intro _; rfl
  | cons c rest ih =>
    intro h
    rw [pyReplaceAux_cons]
    have hp : ¬ old.isPrefixOf (c :: rest) := by
      intro hb
      exact h (infixOfPrefix (isPrefixOf_true_iff.mp hb))
    rw [if_neg hp, ih (fun hi => h (List.infix_cons hi))]

lemma pyReplace_of_not_infix {old : List Char} (new : List Char) (t : List Char)
    (hne : old ≠ []) (h : ¬ old <:+: t) : pyReplace t old new = t := by
  unfold pyReplace
  rw [if_neg hne]
  exact pyReplaceAux_of_not_infix old new t h

lemma pyReplaceAux_self (old new : List Char) (hne : old ≠ []) :
    pyReplaceAux old new old = new := by
  cases old with
  | nil => exact absurd rfl hne
  | cons c rest =>
    rw [pyReplaceAux_cons]
    have hp : (c :: rest).isPrefixOf (c :: rest) = true :=
      isPrefixOf_true_iff.mpr ⟨[], by simp⟩
    rw [if_pos hp]
    have : rest.drop ((c :: rest).length - 1) = [] := by
      simp [List.drop_length]
    rw [this, pyReplaceAux_nil, List.append_nil]

lemma pyReplace_self (old new : List Char) (hne : old ≠ []) :
    pyReplace old old new = new := by
  unfold pyReplace
  rw [if_neg hne]
  exact pyReplaceAux_self old new hne

lemma pyReplaceAux_take_prefix (old new : List Char) :
    ∀ (t : List Char) (m : Nat), (∀ j, j < m → ¬ old <+: t.drop j) →
      t.take m <+: pyReplaceAux old new t := by
  intro t
  induction t with
  | nil =>
    intro m _
    simp
  | cons c rest ih =>
    intro m hm
    cases m with
    | zero => simp
    | succ k =>
      have h0 : ¬ old <+: (c :: rest) := by simpa using hm 0 (by omega)
      have hp : ¬ old.isPrefixOf (c :: rest) := fun hb => h0 (isPrefixOf_true_iff.mp hb)
      rw [pyReplaceAux_cons, if_neg hp]
      rw [List.take_succ_cons]
      rw [List.cons_prefix_cons]
      refine ⟨rfl, ih k ?_⟩
      intro j hj
      have := hm (j + 1) (by omega)
      simpa using this

lemma drop_pred_cons (c : Char) (rest : List Char) (L : Nat) (h : 1 ≤ L) :
    rest.drop (L - 1) = (c :: rest).drop L := by
  obtain ⟨k, rfl⟩ : ∃ k, L = k + 1 := ⟨L - 1, by omega⟩
  simp

lemma no_lt_head (mid : List Char) (hmid : ∀ c ∈ mid, c ≠ '<' ∧ c ≠ '>')
    (j : Nat) (hj : j < (mid ++ ['>']).length) (u v : List Char)
    (heq : (mid ++ ['>']).drop j ++ u = '<' :: v) : False := by
  have hlen : ((mid ++ ['>']).drop j).length = (mid ++ ['>']).length - j :=
    List.length_drop _ _
  have hne : (mid ++ ['>']).drop j ≠ [] := by
    intro hnil
    rw [hnil] at hlen
    simp only [List.length_nil, List.length_append, List.length_singleton] at hlen hj
    omega
  obtain ⟨e, D2, hD⟩ := List.exists_cons_of_ne_nil hne
  rw [hD] at heq
  simp only [List.cons_append, List.cons.injEq] at heq
  have he : e = '<' := heq.1
  have hmem : e ∈ mid ++ ['>'] := by
    have hm2 : e ∈ (mid ++ ['>']).drop j := by
      rw [hD]
      exact List.mem_cons_self _ _
    exact (List.drop_suffix j (mid ++ ['>'])).subset hm2
  rcases List.mem_append.mp hmem with h | h
  · exact (hmid e h).1 he
  · simp only [List.mem_singleton] at h
    rw [h] at he
    exact absurd he (by decide)

/-- Core preservation property behind claim C6: replacing occurrences of the
placeholder of one id never destroys an occurrence of the placeholder of a
different id (placeholders of distinct ids cannot overlap in any text). -/
lemma pyReplaceAux_preserves (a b : Int) (hne : a ≠ b) (new : List Char) :
    ∀ (n : Nat) (t : List Char), t.length ≤ n → mkPlaceholder a <:+: t →
      mkPlaceholder a <:+: pyReplaceAux (mkPlaceholder b) new t := by
  have hlb1 : 1 ≤ (mkPlaceholder b).length :=
    List.length_pos.mpr (mkPlaceholder_ne_nil b)
  have hLb : (mkPlaceholder b).length = (intRepr b).length + 2 := by
    simp [mkPlaceholder]
  intro n
  induction n with
  | zero =>
    intro t ht hin
    exfalso
    have hnil : t = [] := List.length_eq_zero.mp (by omega)
    subst hnil
    obtain ⟨s, u, hsu⟩ := hin
    simp only [List.append_eq_nil] at hsu
    exact mkPlaceholder_ne_nil a hsu.1.2
  | succ n ih =>
    intro t ht hin
    cases t with
    | nil =>
      exfalso
      obtain ⟨s, u, hsu⟩ := hin
      simp only [List.append_eq_nil] at hsu
      exact mkPlaceholder_ne_nil a hsu.1.2
    | cons c rest =>
      have htL : rest.length + 1 ≤ n + 1 := by simpa using ht
      by_cases hpre : mkPlaceholder b <+: (c :: rest)
      · have hp : (mkPlaceholder b).isPrefixOf (c :: rest) = true :=
          isPrefixOf_true_iff.mpr hpre
        rw [pyReplaceAux_cons, if_pos hp]
        rw [drop_pred_cons c rest (mkPlaceholder b).length hlb1]
        obtain ⟨w, hw⟩ := hpre
        obtain ⟨s, u, hsu⟩ := hin
        by_cases hlen : (mkPlaceholder b).length ≤ s.length
        · have hsplit : (c :: rest).drop (mkPlaceholder b).length =
              s.drop (mkPlaceholder b).length ++ (mkPlaceholder a ++ u) := by
            rw [← hsu, List.append_assoc]
            exact List.drop_append_of_le_length hlen
          have hdrop : mkPlaceholder a <:+: (c :: rest).drop (mkPlaceholder b).length :=
            ⟨s.drop (mkPlaceholder b).length, u, by rw [hsplit, List.append_assoc]⟩
          have hlt : ((c :: rest).drop (mkPlaceholder b).length).length ≤ n := by
            rw [List.length_drop]
            simp only [List.length_cons]
            omega
          exact (ih _ hlt hdrop).trans ⟨new, [], by simp⟩
        · push_neg at hlen
          cases s with
          | nil =>
            have hpa : mkPlaceholder a <+: (c :: rest) := ⟨u, by simpa using hsu⟩
            have hpb : mkPlaceholder b <+: (c :: rest) := ⟨w, hw⟩
            rcases List.prefix_or_prefix_of_prefix hpa hpb with h | h
            · exact absurd (mkPlaceholder_prefix_eq h) hne
            · exact absurd (mkPlaceholder_prefix_eq h).symm hne
          | cons d s2 =>
            exfalso
            have hsu2 : d :: (s2 ++ mkPlaceholder a ++ u) =
                '<' :: ((intRepr b ++ ['>']) ++ w) := by
              rw [show d :: (s2 ++ mkPlaceholder a ++ u) =
                (d :: s2) ++ mkPlaceholder a ++ u by simp, hsu, ← hw]
              simp [mkPlaceholder]
            have htail : s2 ++ mkPlaceholder a ++ u = (intRepr b ++ ['>']) ++ w := by
              injection hsu2
            have hs2len : s2.length ≤ (intRepr b).length := by
              have : (d :: s2).length < (mkPlaceholder b).length := hlen
              simp only [List.length_cons] at this
              omega
            have hL2 : (intRepr b ++ ['>']).drop s2.length ++ w =
                mkPlaceholder a ++ u := by
              have h1 : (s2 ++ (mkPlaceholder a ++ u)).drop s2.length =
                  mkPlaceholder a ++ u := List.drop_left _ _
              have h2 : ((intRepr b ++ ['>']) ++ w).drop s2.length =
                  (intRepr b ++ ['>']).drop s2.length ++ w :=
                List.drop_append_of_le_length (by simp; omega)
              rw [← h2, ← htail, List.append_assoc, h1]
            exact no_lt_head (intRepr b) (mem_intRepr_not_mark b) s2.length
              (by simp; omega) w ((intRepr a ++ ['>']) ++ u)
              (by rw [hL2]; simp [mkPlaceholder])
      · have hp : ¬ (mkPlaceholder b).isPrefixOf (c :: rest) = true :=
          fun hb => hpre (isPrefixOf_true_iff.mp hb)
        rw [pyReplaceAux_cons, if_neg hp]
        obtain ⟨s, u, hsu⟩ := hin
        cases s with
        | cons d s2 =>
          have hrest : mkPlaceholder a <:+: rest := by
            refine ⟨s2, u, ?_⟩
            have h2 : d :: (s2 ++ mkPlaceholder a ++ u) = c :: rest := by
              rw [show d :: (s2 ++ mkPlaceholder a ++ u) =
                (d :: s2) ++ mkPlaceholder a ++ u by simp, hsu]
            injection h2
          exact List.infix_cons (ih rest (by omega) hrest)
        | nil =>
          have heq : '<' :: ((intRepr a ++ ['>']) ++ u) = c :: rest := by
            rw [← hsu]
            simp [mkPlaceholder]
          have hc : '<' = c := by injection heq
          have hrest : (intRepr a ++ ['>']) ++ u = rest := by injection heq
          have hkey : ∀ j, j < (intRepr a ++ ['>']).length →
              ¬ mkPlaceholder b <+: rest.drop j := by
            intro j hj hbad
            obtain ⟨w2, hw2⟩ := hbad
            have hrd : rest.drop j = (intRepr a ++ ['>']).drop j ++ u := by
              rw [← hrest]
              exact List.drop_append_of_le_length (by omega)
            apply no_lt_head (intRepr a) (mem_intRepr_not_mark a) j hj u
              ((intRepr b ++ ['>']) ++ w2)
            rw [← hrd, ← hw2]
            simp [mkPlaceholder]
          have htake := pyReplaceAux_take_prefix (mkPlaceholder b) new rest
            (intRepr a ++ ['>']).length
            (fun j hj => hkey j hj)
          have htk : rest.take (intRepr a ++ ['>']).length = intRepr a ++ ['>'] := by
            rw [← hrest]
            exact List.take_left _ _
          rw [htk] at htake
          refine infixOfPrefix ?_
          rw [← hc]
          show '<' :: (intRepr a ++ ['>']) <+: '<' :: pyReplaceAux (mkPlaceholder b) new rest
          exact List.cons_prefix_cons.mpr ⟨rfl, htake⟩

/-! ### Postprocess fold lemmas -/

lemma postprocess_cons (text : List Char) (kv : List Char × Term)
    (rest : List (List Char × Term)) (cases : List (List Char × List Char)) :
    postprocess_text text (kv :: rest) cases =
      postprocess_text
        (pyReplace text kv.1
          (applyCaseStep ((assocLookup cases kv.1).getD []) kv.2.translation))
        rest cases := rfl

lemma postprocess_preserves (n : Int) (cases : List (List Char × List Char)) :
    ∀ (ids : List (Int × Term)) (t : List Char),
      (∀ x ∈ ids, x.1 ≠ n) → mkPlaceholder n <:+: t →
      mkPlaceholder n <:+:
        postprocess_text t (ids.map (fun x => (mkPlaceholder x.1, x.2))) cases := by
  intro ids
  induction ids with
  | nil => intro t _ hin; exact hin
  | cons x xs ih =>
    intro t hne hin
    rw [List.map_cons, postprocess_cons]
    apply ih _ (fun y hy => hne y (List.mem_cons_of_mem _ hy))
    have hxny : x.1 ≠ n := hne x (List.mem_cons_self _ _)
    unfold pyReplace
    rw [if_neg (mkPlaceholder_ne_nil x.1)]
    exact pyReplaceAux_preserves n x.1 (fun h => hxny h.symm) _ t.length t le_rfl hin

lemma postprocess_id_of_no_key (cases : List (List Char × List Char)) :
    ∀ (ids : List (Int × Term)) (t : List Char),
      (∀ x ∈ ids, ¬ mkPlaceholder x.1 <:+: t) →
      postprocess_text t (ids.map (fun x => (mkPlaceholder x.1, x.2))) cases = t := by
  intro ids
  induction ids with
  | nil => intro t _; rfl
  | cons x xs ih =>
    intro t hno
    rw [List.map_cons, postprocess_cons]
    have hid : pyReplace t (mkPlaceholder x.1)
        (applyCaseStep ((assocLookup cases (mkPlaceholder x.1)).getD [])
          x.2.translation) = t :=
      pyReplace_of_not_infix _ t (mkPlaceholder_ne_nil x.1)
        (hno x (List.mem_cons_self _ _))
    rw [hid]
    exact ih t (fun y hy => hno y (List.mem_cons_of_mem _ hy))

/-! ### Case-rule lemmas -/

lemma applyCaseStep_eq_amended (o tr : List Char) :
    applyCaseStep o tr = amendedCaseRule o tr := by
  cases o with
  | nil =>
    simp [applyCaseStep, amendedCaseRule, pyIsUpper, pyIsTitle, pyIsTitleGo]
  | cons c rest =>
    have hm : amendedCaseRule (c :: rest) tr =
        if pyIsUpper (c :: rest) then pyUpperL tr
        else if (pyIsTitle (c :: rest) || c.isUpper) then pyCapitalize tr
        else tr := rfl
    rw [hm]
    show (if pyIsUpper (c :: rest) then pyUpperL tr
      else if pyIsTitle (c :: rest) then pyCapitalize tr
      else if c.isUpper then pyCapitalize tr else tr) = _
    by_cases h1 : pyIsUpper (c :: rest)
    · simp [h1]
    · by_cases h2 : pyIsTitle (c :: rest)
      · simp [h1, h2]
      · by_cases h3 : c.isUpper
        · simp [h1, h2, h3]
        · simp [h1, h2, h3]

lemma postprocess_single (i : Int) (T : Term) (o : List Char) :
    postprocess_text (mkPlaceholder i) [(mkPlaceholder i, T)]
      [(mkPlaceholder i, o)] = amendedCaseRule o T.translation := by
  rw [postprocess_cons]
  show postprocess_text
    (pyReplace (mkPlaceholder i) (mkPlaceholder i)
      (applyCaseStep ((assocLookup [(mkPlaceholder i, o)] (mkPlaceholder i)).getD [])
        T.translation)) [] _ = _
  have hlk : assocLookup [(mkPlaceholder i, o)] (mkPlaceholder i) = some o := by
    simp [assocLookup]
  rw [hlk]
  show pyReplace (mkPlaceholder i) (mkPlaceholder i)
      (applyCaseStep o T.translation) = _
  rw [pyReplace_self _ _ (mkPlaceholder_ne_nil i)]
  exact applyCaseStep_eq_amended o T.translation

/-! ### Sorting lemmas (span selection order) -/

lemma mem_insertDesc (p x : Span) :
    ∀ l : List Span, x ∈ insertDesc p l ↔ x = p ∨ x ∈ l := by
  intro l
  induction l with
  | nil => simp [insertDesc]
  | cons q rest ih =>
    by_cases h : q.start < p.start
    · simp [insertDesc, h]
    · simp only [insertDesc, if_neg h, List.mem_cons, ih]
      tauto

lemma pairwise_insertDesc (p : Span) :
    ∀ l : List Span, List.Pairwise (fun a b => b.start ≤ a.start) l →
      List.Pairwise (fun a b => b.start ≤ a.start) (insertDesc p l) := by
  intro l
  induction l with
  | nil => intro _; simp [insertDesc]
  | cons q rest ih =>
    intro hp
    rcases List.pairwise_cons.mp hp with ⟨hq, hrest⟩
    by_cases h : q.start < p.start
    · rw [insertDesc, if_pos h]
      refine List.pairwise_cons.mpr ⟨?_, hp⟩
      intro x hx
      rcases List.mem_cons.mp hx with rfl | hx2
      · omega
      · have := hq x hx2
        omega
    · rw [insertDesc, if_neg h]
      refine List.pairwise_cons.mpr ⟨?_, ih hrest⟩
      intro x hx
      rcases (mem_insertDesc p x rest).mp hx with rfl | hx2
      · omega
      · exact hq x hx2

lemma perm_insertDesc (p : Span) :
    ∀ l : List Span, (insertDesc p l).Perm (p :: l) := by
  intro l
  induction l with
  | nil => simp [insertDesc]
  | cons q rest ih =>
    by_cases h : q.start < p.start
    · rw [insertDesc, if_pos h]
    · rw [insertDesc, if_neg h]
      exact (List.Perm.cons q ih).trans (List.Perm.swap p q rest)

lemma sortFold_pairwise :
    ∀ (l : List Span) (acc : List Span),
      List.Pairwise (fun a b => b.start ≤ a.start) acc →
      List.Pairwise (fun a b => b.start ≤ a.start)
        (l.foldl (fun a p => insertDesc p a) acc) := by
  intro l
  induction l with
  | nil => intro acc h; exact h
  | cons x xs ih => intro acc h; exact ih _ (pairwise_insertDesc x acc h)

lemma sortFold_perm :
    ∀ (l : List Span) (acc : List Span),
      (l.foldl (fun a p => insertDesc p a) acc).Perm (acc ++ l) := by
  intro l
  induction l with
  | nil => intro acc; simp
  | cons x xs ih =>
    intro acc
    have h1 := ih (insertDesc x acc)
    have h2 : (insertDesc x acc ++ xs).Perm ((x :: acc) ++ xs) :=
      (perm_insertDesc x acc).append_right xs
    have h3 : ((x :: acc) ++ xs).Perm (acc ++ x :: xs) := by
      simp only [List.cons_append]
      exact List.perm_middle.symm
    exact (h1.trans h2).trans h3

lemma sortSpansDesc_sorted (l : List Span) :
    List.Pairwise (fun a b => b.start ≤ a.start) (sortSpansDesc l) :=
  sortFold_pairwise l [] (by simp)

lemma sortSpansDesc_perm (l : List Span) : (sortSpansDesc l).Perm l := by
  have := sortFold_perm l []
  simpa using this

/-! ### Splice locality -/

lemma pySlice_spliceAt (t p : List Char) (a b s e : Nat)
    (hab : a ≤ b) (hse : s ≤ e) (has : a < s) (hdisj : b ≤ s ∨ e ≤ a)
    (hbt : b ≤ t.length) :
    pySlice (spliceAt t s e p) a b = pySlice t a b := by
  have hbs : b ≤ s := by omega
  unfold pySlice spliceAt
  have h1 : (t.take s ++ (p ++ t.drop e)).drop a = (t.take s).drop a ++ (p ++ t.drop e) :=
    List.drop_append_of_le_length (by rw [List.length_take]; omega)
  rw [List.append_assoc, h1]
  have h2 : ((t.take s).drop a ++ (p ++ t.drop e)).take (b - a) =
      ((t.take s).drop a).take (b - a) :=
    List.take_append_of_le_length (by rw [List.length_drop, List.length_take]; omega)
  rw [h2, List.drop_take, List.take_take]
  congr 1
  omega

/-! ### Store lemmas -/

lemma assocLookup_append_of_none {β : Type} (k : List Char) :
    ∀ (d d2 : List (List Char × β)), assocLookup d k = none →
      assocLookup (d ++ d2) k = assocLookup d2 k := by
  intro d
  induction d with
  | nil => intro d2 _; rfl
  | cons kv rest ih =>
    intro d2 h
    by_cases hk : kv.1 = k
    · simp [assocLookup, hk] at h
    · simp only [List.cons_append, assocLookup, if_neg hk] at h ⊢
      exact ih d2 h

lemma assocLookup_map_update {β : Type} (k : List Char) (v : β) :
    ∀ d : List (List Char × β), (assocLookup d k).isSome →
      assocLookup (d.map (fun kv => if kv.1 = k then (k, v) else kv)) k = some v := by
  intro d
  induction d with
  | nil => intro h; simp [assocLookup] at h
  | cons kv rest ih =>
    intro h
    by_cases hk : kv.1 = k
    · simp [assocLookup, hk]
    · simp only [assocLookup, if_neg hk] at h
      simp only [List.map_cons, if_neg hk]
      simp only [assocLookup, if_neg hk]
      exact ih h

lemma assocLookup_dictInsert_self {β : Type} (d : List (List Char × β))
    (k : List Char) (v : β) :
    assocLookup (dictInsert d k v) k = some v := by
  unfold dictInsert
  by_cases h : (assocLookup d k).isSome
  · rw [if_pos h]
    exact assocLookup_map_update k v d h
  · rw [if_neg h]
    have hn : assocLookup d k = none := by
      cases hh : assocLookup d k with
      | none => rfl
      | some x => rw [hh] at h; simp at h
    rw [assocLookup_append_of_none k d _ hn]
    simp [assocLookup]

/-! ### First-occurrence lemmas for the fallback extractor -/

lemma pyFindGo_some (sub : List Char) :
    ∀ (t : List Char) (i j : Nat), pyFindGo sub t i = some j →
      i ≤ j ∧ sub <+: t.drop (j - i) ∧ ∀ k, k < j - i → ¬ sub <+: t.drop k := by
  intro t
  induction t with
  | nil =>
    intro i j h
    simp only [pyFindGo] at h
    by_cases hp : sub.isPrefixOf ([] : List Char)
    · rw [if_pos hp] at h
      injection h with hj
      subst hj
      refine ⟨le_rfl, ?_, ?_⟩
      · simpa using isPrefixOf_true_iff.mp hp
      · intro k hk; omega
    · rw [if_neg hp] at h
      exact absurd h (by simp)
  | cons c rest ih =>
    intro i j h
    simp only [pyFindGo] at h
    by_cases hp : sub.isPrefixOf (c :: rest)
    · rw [if_pos hp] at h
      injection h with hj
      subst hj
      refine ⟨le_rfl, ?_, ?_⟩
      · simpa using isPrefixOf_true_iff.mp hp
      · intro k hk; omega
    · rw [if_neg hp] at h
      obtain ⟨h1, h2, h3⟩ := ih (i + 1) j h
      refine ⟨by omega, ?_, ?_⟩
      · have hd : (c :: rest).drop (j - i) = rest.drop (j - i - 1) :=
          (drop_pred_cons c rest (j - i) (by omega)).symm
        rw [hd]
        have he : j - i - 1 = j - (i + 1) := by omega
        rw [he]
        exact h2
      · intro k hk
        cases k with
        | zero =>
          intro hbad
          rw [List.drop_zero] at hbad
          exact hp (isPrefixOf_true_iff.mpr hbad)
        | succ k2 =>
          have := h3 k2 (by omega)
          simpa using this

lemma pyFind_spec (t sub : List Char) (j : Nat) (h : pyFind t sub = some j) :
    sub <+: t.drop j ∧ ∀ k, k < j → ¬ sub <+: t.drop k := by
  obtain ⟨h1, h2, h3⟩ := pyFindGo_some sub t 0 j h
  constructor
  · simpa using h2
  · intro k hk
    have := h3 k (by omega)
    exact this

lemma pyFindGo_isSome (sub : List Char) :
    ∀ (t : List Char) (i : Nat), (∃ k, sub <+: t.drop k) →
      (pyFindGo sub t i).isSome := by
  intro t
  induction t with
  | nil =>
    intro i hex
    obtain ⟨k, hk⟩ := hex
    simp only [List.drop_nil] at hk
    have hb : sub.isPrefixOf ([] : List Char) = true := isPrefixOf_true_iff.mpr hk
    simp [pyFindGo, hb]
  | cons c rest ih =>
    intro i hex
    obtain ⟨k, hk⟩ := hex
    simp only [pyFindGo]
    by_cases hp : sub.isPrefixOf (c :: rest)
    · simp [hp]
    · rw [if_neg hp]
      apply ih
      cases k with
      | zero =>
        exfalso
        rw [List.drop_zero] at hk
        exact hp (isPrefixOf_true_iff.mpr hk)
      | succ k2 =>
        exact ⟨k2, by simpa using hk⟩

lemma pyFind_isSome_of_infix {sub t : List Char} (h : sub <:+: t) :
    (pyFind t sub).isSome := by
  obtain ⟨s, u, hsu⟩ := h
  apply pyFindGo_isSome
  refine ⟨s.length, ?_⟩
  rw [← hsu, List.append_assoc, List.drop_left]
  exact List.prefix_append sub u

lemma infixOfSuffix {l1 l2 : List Char} (h : l1 <:+ l2) : l1 <:+: l2 := by
  obtain ⟨s, hs⟩ := h
  exact ⟨s, [], by simp [hs]⟩

lemma findallGo_infix :
    ∀ (fuel : Nat) (l w : List Char), w ∈ findallGo fuel l → w <:+: l := by
  intro fuel
  induction fuel with
  | zero =>
    intro l w h
    cases l <;> simp [findallGo] at h
  | succ f ih =>
    intro l w h
    cases l with
    | nil => simp [findallGo] at h
    | cons c rest =>
      simp only [findallGo] at h
      by_cases hw : isWordChar c
      · rw [if_pos hw] at h
        rcases List.mem_cons.mp h with rfl | h2
        · exact infixOfPrefix (List.takeWhile_prefix _)
        · exact (ih _ w h2).trans (infixOfSuffix (List.dropWhile_suffix _))
      · rw [if_neg hw] at h
        exact List.infix_cons (ih rest w h)

lemma findallWords_infix {l w : List Char} (h : w ∈ findallWords l) : w <:+: l :=
  findallGo_infix l.length l w h

/-! ### Claim theorems -/

/-- C1, counterexample: the claim's case rule ("title case or ONLY the
first character uppercase → capitalize-first, otherwise verbatim") fails on
the code.  For original surface text "AbC" (not all-uppercase, not title
case, and not only-first-character-uppercase since its third character is
also uppercase) with translation "x", the claim prescribes the verbatim
translation "x", but `postprocess_text` capitalizes, producing "X". -/
theorem C1_counterexample :
    claimCaseRule exAbC exTermX.translation = exTermX.translation ∧
    postprocess_text (mkPlaceholder 1) [(mkPlaceholder 1, exTermX)]
      [(mkPlaceholder 1, exAbC)] ≠ exTermX.translation ∧
    postprocess_text (mkPlaceholder 1) [(mkPlaceholder 1, exTermX)]
      [(mkPlaceholder 1, exAbC)] = pyCapitalize exTermX.translation := by
  refine ⟨by decide, by decide, by decide⟩

/-- C1, amended: for every placeholder that `postprocess_text` replaces, the
substituted translation carries the case pattern of the recorded original:
all-uppercase original → translation fully uppercased; title-case original,
or original whose first character is uppercase (regardless of the remaining
characters) → translation rendered with capitalize-first semantics (leading
character uppercased, remaining characters lowercased, Python
`str.capitalize`); otherwise the translation is used verbatim.  With
translation "base de datos": original "Database" yields "Base de datos",
"DATABASE" yields "BASE DE DATOS", "database" yields "base de datos". -/
theorem C1_case_fidelity :
    (∀ (i : Int) (T : Term) (o : List Char),
      postprocess_text (mkPlaceholder i) [(mkPlaceholder i, T)]
        [(mkPlaceholder i, o)] = amendedCaseRule o T.translation) ∧
    postprocess_text (mkPlaceholder 1) [(mkPlaceholder 1, exTermBdd)]
      [(mkPlaceholder 1, exDatabaseTitle)] = exBaseCap ∧
    postprocess_text (mkPlaceholder 1) [(mkPlaceholder 1, exTermBdd)]
      [(mkPlaceholder 1, exDatabaseUpper)] = exBaseUpper ∧
    postprocess_text (mkPlaceholder 1) [(mkPlaceholder 1, exTermBdd)]
      [(mkPlaceholder 1, exDatabaseLower)] = exBaseLower :=
  ⟨fun i T o => postprocess_single i T o, by decide, by decide, by decide⟩

/-- C3: if no candidate span of the input text resolves to a stored term,
`preprocess_text` returns the text unchanged together with an empty
placeholder-to-term mapping and an empty placeholder-to-original-case
mapping.  (The claim's hypothesis "no substring resolves to a stored term"
is taken, per its own parenthetical, as: no candidate span produced by the
extractor matches.) -/
theorem C3_no_match_identity (terms : TermStore) (rmStop : List Char → List Char)
    (extract : List Char → List Span) (text : List Char)
    (h : ∀ p ∈ extract text, find_matching_term terms rmStop p.text = none) :
    preprocess_text terms rmStop extract text = (text, [], []) := by
  unfold preprocess_text
  by_cases ht : terms = []
  · rw [if_pos ht]
  · rw [if_neg ht]
    have hm : matchingPhrases terms rmStop (extract text) = [] := by
      unfold matchingPhrases
      rw [List.filter_eq_nil_iff]
      intro p hp
      simp [h p hp]
    unfold selectSpans
    rw [hm]
    rfl

/-- Witness for C3 at a concrete input: the store knows only "server", the
fallback extractor finds no matching word in "hello world", and preprocess
is the identity with empty mappings. -/
theorem C3_witness :
    preprocess_text exStore1 removeStopwordsFallback
      (extract_noun_phrases_fallback exStore1) exTextHello =
      (exTextHello, [], []) :=
  C3_no_match_identity exStore1 removeStopwordsFallback
    (extract_noun_phrases_fallback exStore1) exTextHello (by decide)

/-- C5: with an empty Term Store, `preprocess_text` returns any text
unchanged with both mappings empty, and `postprocess_text` with the
resulting empty mapping returns any text unchanged. -/
theorem C5_empty_store_identity :
    (∀ (rmStop : List Char → List Char) (extract : List Char → List Span)
        (text : List Char),
      preprocess_text [] rmStop extract text = (text, [], [])) ∧
    (∀ (text : List Char) (cases : List (List Char × List Char)),
      postprocess_text text [] cases = text) :=
  ⟨fun _ _ text => by simp [preprocess_text], fun _ _ => rfl⟩

/-- C7: the claim says the minimal fallback filters against a fixed
non-trivial built-in stopword set; in the code the fallback configuration
sets the module-level `STOPWORDS` to the empty set (line 18), so the
fallback `_remove_stopwords` removes nothing: on "the server" the stopword
"the" is retained, contradicting the function's own comment ("remove common
English stopwords") and leaving `lookup_normalized` unable to strip
stopwords. -/
theorem C7_fallback_removes_nothing :
    stopwordsFallback = ([] : List (List Char)) ∧
    removeStopwordsFallback exThePhrase = exThePhrase :=
  ⟨rfl, by decide⟩

/-- C9: `preprocess_text` and `postprocess_text`, translated in
state-passing form, leave the `TerminologyManager` state — in particular
the Term Store and every `Term` record in it — unchanged: the Python bodies
contain no assignment to `self` attributes and no mutation of a stored
`Term`, so the returned state equals the input state. -/
theorem C9_store_readonly :
    ∀ (self : TerminologyManager) (rmStop : List Char → List Char)
      (extract : List Char → List Span) (text t2 : List Char)
      (reps : List (List Char × Term)) (cases : List (List Char × List Char)),
      (preprocess_text_method self rmStop extract text).1 = self ∧
      (postprocess_text_method self t2 reps cases).1 = self ∧
      (preprocess_text_method self rmStop extract text).1.terms = self.terms :=
  fun _ _ _ _ _ _ _ => ⟨rfl, rfl, rfl⟩

/-- C2, counterexample: the placeholder tokens generated within one
preprocess call for the matched spans are NOT always pairwise distinct:
with a store holding only the term "server" (id 1) and two candidate spans
whose text is "server", the loop generates the token "<1>" twice, and each
of the two equal tokens is a substring (infix) of the other. -/
theorem C2_counterexample :
    ¬ List.Pairwise (fun a b => a ≠ b)
      (genPlaceholders exStore1 removeStopwordsFallback exSpansTwice) ∧
    genPlaceholders exStore1 removeStopwordsFallback exSpansTwice =
      [mkPlaceholder 1, mkPlaceholder 1] ∧
    mkPlaceholder 1 <:+: mkPlaceholder 1 :=
  ⟨by decide, by decide, by decide⟩

/-- C2, amended: every placeholder token generated within one preprocess
call has the form `"<" + decimal term id + ">"`, and any two generated
tokens are either identical (spans matched to the same term id) or neither
is a substring of the other — so substring replacement during restoration
is unambiguous (e.g. "<1>" and "<12>" never collide). -/
theorem C2_token_unambiguity :
    ∀ (terms : TermStore) (rmStop : List Char → List Char) (spans : List Span)
      (x y : List Char),
      x ∈ genPlaceholders terms rmStop spans →
      y ∈ genPlaceholders terms rmStop spans →
      (∃ i : Int, x = mkPlaceholder i) ∧ (x ≠ y → ¬ x <:+: y) := by
  intro terms rm spans x y hx hy
  simp only [genPlaceholders, List.mem_filterMap] at hx hy
  obtain ⟨p, _, hfp⟩ := hx
  obtain ⟨q, _, hfq⟩ := hy
  rcases hmp : find_matching_term terms rm p.text with _ | tp
  · rw [hmp] at hfp
    simp at hfp
  · rw [hmp] at hfp
    have hfp2 : mkPlaceholder tp.id = x := by simpa using hfp
    rcases hmq : find_matching_term terms rm q.text with _ | tq
    · rw [hmq] at hfq
      simp at hfq
    · rw [hmq] at hfq
      have hfq2 : mkPlaceholder tq.id = y := by simpa using hfq
      subst hfp2
      subst hfq2
      refine ⟨⟨tp.id, rfl⟩, ?_⟩
      intro hne hinf
      exact hne (congrArg mkPlaceholder (mkPlaceholder_infix_eq hinf))

/-- Witness for C2 at a concrete input: the store holds term ids 1 and 12;
the generated tokens "<12>" and "<1>" do not collide: "<12>" is not a
substring of "<1>". -/
theorem C2_witness : ¬ (mkPlaceholder 12 <:+: mkPlaceholder 1) :=
  (C2_token_unambiguity exStore12 removeStopwordsFallback exSpans12
    (mkPlaceholder 12) (mkPlaceholder 1) (by decide) (by decide)).2 (by decide)

/-- C4: (a) the surviving matched spans are processed in start-offset
descending order — the list `preprocess_text` folds over is sorted by start
descending and is a permutation of the matched candidates; (b) for
non-overlapping well-formed spans, splicing a placeholder at one span's
offsets leaves every span with a lower start offset still pointing at its
original characters (a replacement only changes text at or after its own
start). -/
theorem C4_order_and_locality :
    (∀ (terms : TermStore) (rmStop : List Char → List Char) (spans : List Span),
      List.Pairwise (fun a b => b.start ≤ a.start) (selectSpans terms rmStop spans) ∧
      (selectSpans terms rmStop spans).Perm (matchingPhrases terms rmStop spans)) ∧
    (∀ (t p : List Char) (a b s e : Nat), a ≤ b → s ≤ e → a < s →
      (b ≤ s ∨ e ≤ a) → b ≤ t.length →
      pySlice (spliceAt t s e p) a b = pySlice t a b) :=
  ⟨fun _ _ _ => ⟨sortSpansDesc_sorted _, sortSpansDesc_perm _⟩,
   fun t p a b s e h1 h2 h3 h4 h5 => pySlice_spliceAt t p a b s e h1 h2 h3 h4 h5⟩

/-- Witness for C4 at a concrete input: splicing "<1>" over offsets (4,10)
of "The Server is down" leaves the slice (0,3) — the word "The" — intact. -/
theorem C4_witness :
    pySlice (spliceAt exTextTS 4 10 (mkPlaceholder 1)) 0 3 = pySlice exTextTS 0 3 :=
  C4_order_and_locality.2 exTextTS (mkPlaceholder 1) 0 3 4 10 (by decide)
    (by decide) (by decide) (Or.inl (by decide)) (by decide)

/-- C6: for a Placeholder Mapping (keyed, per the data model, by placeholder
tokens `"<" + id + ">"`), `postprocess_text` replaces only tokens that are
keys of the mapping: a placeholder token whose id is not among the mapping's
ids and which occurs in the text still occurs in the output (left verbatim),
and a text containing no key at all is returned unchanged; the function is
total, so no error is raised. -/
theorem C6_unmapped_left_verbatim :
    (∀ (ids : List (Int × Term)) (cases : List (List Char × List Char))
        (t : List Char) (n : Int),
      (∀ x ∈ ids, x.1 ≠ n) → mkPlaceholder n <:+: t →
      mkPlaceholder n <:+:
        postprocess_text t (ids.map (fun x => (mkPlaceholder x.1, x.2))) cases) ∧
    (∀ (ids : List (Int × Term)) (cases : List (List Char × List Char))
        (t : List Char),
      (∀ x ∈ ids, ¬ mkPlaceholder x.1 <:+: t) →
      postprocess_text t (ids.map (fun x => (mkPlaceholder x.1, x.2))) cases = t) :=
  ⟨fun ids cases t n hne hin => postprocess_preserves n cases ids t hne hin,
   fun ids cases t hno => postprocess_id_of_no_key cases ids t hno⟩

/-- Witness for C6 at a concrete input: the mapping knows only id 1; the
unmapped placeholder "<2>" occurring in "a<2>b<1>c" is still present in the
postprocessed output. -/
theorem C6_witness :
    mkPlaceholder 2 <:+:
      postprocess_text exText6
        ([(1, exTermServer)].map (fun x => (mkPlaceholder x.1, x.2))) [] :=
  C6_unmapped_left_verbatim.1 [(1, exTermServer)] [] exText6 2
    (by decide) (by decide)

/-- C8: during loading (a) a record whose normalized (lowercased, trimmed)
term or whose translation is empty is skipped and adds no entry; (b) a kept
record is stored under its normalized term text; (c) across any earlier
records (possibly from other sources), the last-loaded record's Term is the
one present under its key afterwards. -/
theorem C8_load_semantics :
    (∀ (lang : List Char) (store : TermStore) (r : CsvRecord),
      (recordKey r = [] ∨ r.translation = []) →
      load_single_row lang store r = store) ∧
    (∀ (lang : List Char) (store : TermStore) (r : CsvRecord),
      recordKey r ≠ [] → r.translation ≠ [] →
      assocLookup (load_single_row lang store r) (recordKey r) =
        some (termOfRecord lang store r)) ∧
    (∀ (lang : List Char) (store : TermStore) (rs : List CsvRecord) (r : CsvRecord),
      recordKey r ≠ [] → r.translation ≠ [] →
      assocLookup (load_rows lang store (rs ++ [r])) (recordKey r) =
        some (termOfRecord lang (load_rows lang store rs) r)) := by
  refine ⟨?_, ?_, ?_⟩
  · intro lang store r h
    unfold load_single_row
    rw [if_neg (by tauto)]
  · intro lang store r h1 h2
    unfold load_single_row
    rw [if_pos ⟨h1, h2⟩]
    exact assocLookup_dictInsert_self store _ _
  · intro lang store rs r h1 h2
    unfold load_rows
    rw [List.foldl_append]
    show assocLookup (List.foldl (load_single_row lang)
      (load_single_row lang (load_rows lang store rs) r) []) _ = _
    show assocLookup (load_single_row lang (load_rows lang store rs) r) _ = _
    unfold load_single_row
    rw [if_pos ⟨h1, h2⟩]
    exact assocLookup_dictInsert_self _ _ _

/-- Witness for C8 at a concrete input: loading a row keyed "server" and
then a row " Server " (same normalized key) leaves the last row's Term in
the store under "server". -/
theorem C8_witness :
    assocLookup (load_rows exLangEs [] ([exRecOld] ++ [exRecNew]))
        (recordKey exRecNew) =
      some (termOfRecord exLangEs (load_rows exLangEs [] [exRecOld]) exRecNew) :=
  C8_load_semantics.2.2 exLangEs [] [exRecOld] exRecNew (by decide) (by decide)

/-- C10: every span emitted by the fallback extractor carries the offsets of
the FIRST occurrence of its word in the lowercased text: its start is the
least index at which the word occurs (so a word occurring several times
yields spans that all carry the first occurrence's offsets, never a later
occurrence's), and its end is start + word length. -/
theorem C10_fallback_first_occurrence :
    ∀ (terms : TermStore) (text : List Char) (sp : Span),
      sp ∈ extract_noun_phrases_fallback terms text →
      pyFind (pyLowerL text) sp.text = some sp.start ∧
      sp.stop = sp.start + sp.text.length ∧
      sp.text <+: (pyLowerL text).drop sp.start ∧
      (∀ k, k < sp.start → ¬ sp.text <+: (pyLowerL text).drop k) := by
  intro terms text sp hm
  unfold extract_noun_phrases_fallback at hm
  simp only [List.mem_filterMap] at hm
  obtain ⟨w, _, hres⟩ := hm
  by_cases hk : (assocLookup terms w).isSome
  · rw [if_pos hk] at hres
    rcases hfind : pyFind (pyLowerL text) w with _ | i
    · rw [hfind] at hres
      simp at hres
    · rw [hfind] at hres
      simp only [Option.some.injEq] at hres
      subst hres
      obtain ⟨hpre, hmin⟩ := pyFind_spec (pyLowerL text) w i hfind
      exact ⟨hfind, rfl, hpre, hmin⟩
  · rw [if_neg hk] at hres
    simp at hres

/-- Witness for C10 at a concrete input: in "server and server" the span the
fallback extractor emits (for either occurrence of "server") carries start
offset 0, the first occurrence. -/
theorem C10_witness :
    pyFind (pyLowerL exTextSS) exSpanSS.text = some exSpanSS.start :=
  (C10_fallback_first_occurrence exStore1 exTextSS exSpanSS (by decide)).1

end Nkrane
